import Mathlib

/-!
Verification of the getty terminal-resolution engine.

This file shallowly embeds the core algorithms of the crate:
the proc stat text-record parser (src/linux/pinfo.rs), the growable
buffer variants and the directory-stream refill loop (src/linux/dir.rs),
and the guess-then-scan terminal path resolver (src/linux/mod.rs).

Embedding conventions:
- byte strings are lists of naturals (each byte a value below 256);
- machine integers are modelled with Nat and Int, wrapping written
  explicitly as a remainder by 2 to the 32 where the source transmutes
  or stores into a 32-bit field;
- OS calls are modelled by explicit oracles (lists of results consumed
  in order) or, for the filesystem search, by a static tree of nodes;
  close results are discarded by the source and are not modelled;
- fallible code returns Except over an Errno type carrying only the
  error constructors the source distinguishes.
-/

namespace Getty

/-- Errors distinguished by the source. Codes other than the named ones
are carried by the catch-all constructor. -/
inductive Errno where
  | EINVAL
  | EINTR
  | EAGAIN
  | ENOENT
  | ENOTTY
  | ENOMEM
  | ENOTDIR
  | other (code : Nat)
deriving DecidableEq, Repr

/-- Device number, reduced to its major and minor components: the source
only compares device numbers for equality and extracts major and minor. -/
structure Dev where
  major : Nat
  minor : Nat
deriving DecidableEq, Repr

/-! ## Text-record parser (src/linux/pinfo.rs, RawProcessInfo::parse)

The bytes of the status record are parsed positionally.  Numeric fields
use the atoi crate's from_radix_10_signed: an optional sign byte, then
decimal digits folded into the accumulator; the number of consumed bytes
is returned alongside the value.  Values are accumulated in unbounded
integers here; the source accumulates in the destination machine type,
which agrees on every in-range input, and the explicit wrap by 2 to the
32 below records where the source stores into a 32-bit field. -/

/-- Digit byte test (ASCII 48..57). -/
def isDigitByte (b : Nat) : Bool := 48 ≤ b && b ≤ 57

/-- Digit-folding loop of from_radix_10_signed: consumes digits, returns
the accumulated value and the total number of bytes consumed. -/
def radix10Go : List Nat → Int → Int → Nat → Int × Nat
  | [], _, acc, used => (acc, used)
  | b :: rest, sign, acc, used =>
    if isDigitByte b then
      radix10Go rest sign (acc * 10 + sign * (Int.ofNat b - 48)) (used + 1)
    else (acc, used)

/-- from_radix_10_signed: optional sign byte (43 is plus, 45 is minus),
then digits. -/
def fromRadix10Signed (buf : List Nat) : Int × Nat :=
  match buf with
  | 43 :: rest => radix10Go rest 1 0 1
  | 45 :: rest => radix10Go rest (-1) 0 1
  | _ => radix10Go buf 1 0 0

/-- parse_num: fails with EINVAL when no byte was consumed, otherwise
returns the value and the remaining buffer. -/
def parseNum (buf : List Nat) : Except Errno (Int × List Nat) :=
  let p := fromRadix10Signed buf
  if p.2 = 0 then .error .EINVAL else .ok (p.1, buf.drop p.2)

/-- skip_char: consumes one expected byte or fails with EINVAL. -/
def skipChar (buf : List Nat) (ch : Nat) : Except Errno (List Nat) :=
  match buf with
  | b :: rest => if b = ch then .ok rest else .error .EINVAL
  | [] => .error .EINVAL

/-- skip_space: skip_char specialised to the space byte. -/
def skipSpace (buf : List Nat) : Except Errno (List Nat) := skipChar buf 32

/-- memchr: index of the first occurrence of a byte. -/
def memchr (ch : Nat) (buf : List Nat) : Option Nat :=
  List.findIdx? (fun b => b == ch) buf

/-- Wrap an unbounded integer into 32 bits, as the source does when it
transmutes an i32 to u32 or stores into a u32 field. -/
def wrap32 (i : Int) : Int := i.emod 4294967296

/-- The record returned by the text-record strategy: process id, session
id, and the controlling-terminal device encoding when one is present. -/
structure RawProcessInfo where
  pid : Int
  session : Int
  tty : Option Int
deriving DecidableEq, Repr

/-- Fields 3 through 7 after the command-name field and its trailing
space: ppid (parsed, discarded), pgrp (skipped as a token up to the next
space), session, tty_nr. A tty_nr of minus one means no controlling
terminal; any other value is reinterpreted as unsigned. -/
def parseTail (buf : List Nat) : Except Errno (Int × Option Int) :=
  match parseNum buf with
  | .error e => .error e
  | .ok pb =>
    match skipSpace pb.2 with
    | .error e => .error e
    | .ok b1 =>
      match memchr 32 b1 with
      | some 0 => .error .EINVAL
      | none => .error .EINVAL
      | some n =>
        match parseNum (b1.drop (n + 1)) with
        | .error e => .error e
        | .ok sb =>
          match skipSpace sb.2 with
          | .error e => .error e
          | .ok b2 =>
            match parseNum b2 with
            | .error e => .error e
            | .ok tb =>
              .ok (wrap32 sb.1, if tb.1 = -1 then none else some (wrap32 tb.1))

/-- The step right after the command-name field: the process-state field
must end with a space exactly one byte in (source lines 97-100 of
pinfo.rs), otherwise the record is rejected with EINVAL. -/
def parseAfterComm (pid : Int) (buf : List Nat) : Except Errno RawProcessInfo :=
  match memchr 32 buf with
  | some 1 =>
    match parseTail (buf.drop 2) with
    | .error e => .error e
    | .ok st => .ok ⟨pid, st.1, st.2⟩
  | _ => .error .EINVAL

/-- Leading part of the record: pid, a space, an opening parenthesis,
then the command name delimited by searching memchr for the FIRST
closing parenthesis (source line 92 of pinfo.rs), a space, and the
remaining buffer. -/
def statHead (buf : List Nat) : Except Errno (Int × List Nat) :=
  match parseNum buf with
  | .error e => .error e
  | .ok pb =>
    match skipSpace pb.2 with
    | .error e => .error e
    | .ok b1 =>
      match skipChar b1 40 with
      | .error e => .error e
      | .ok b2 =>
        match memchr 41 b2 with
        | none => .error .EINVAL
        | some i =>
          match skipSpace (b2.drop (i + 1)) with
          | .error e => .error e
          | .ok b3 => .ok (wrap32 pb.1, b3)

/-- Whole-record parser: the parsing portion of RawProcessInfo::parse. -/
def parseStat (buf : List Nat) : Except Errno RawProcessInfo :=
  match statHead buf with
  | .error e => .error e
  | .ok hb => parseAfterComm hb.1 hb.2

/-! ## File reading (src/linux/pinfo.rs, lines 58-84)

The open and read loops are modelled with result oracles: each OS call
consumes the next element of the oracle list.  An exhausted oracle means
the call succeeds (open) or reports end of file (read), so that the
model stays total; an environment that interrupts forever is not
representable, which is harmless for the claims below, all about which
errors can be returned. -/

/-- The openat retry loop: EINTR results are retried, any other error is
returned, a success breaks out of the loop. -/
def openLoop : List (Except Errno Unit) → Except Errno Unit
  | [] => .ok ()
  | .error .EINTR :: rest => openLoop rest
  | .error e :: _ => .error e
  | .ok _ :: _ => .ok ()

/-- The read retry loop over a 1024-byte buffer: a zero-byte read stops,
a positive read consumes up to the remaining space, EINTR is retried,
any other error is returned.  The state is the remaining space and the
number of bytes read so far. -/
def readLoop : List (Except Errno Nat) → Nat → Nat → Except Errno Nat
  | _, 0, got => .ok got
  | [], _, got => .ok got
  | r :: rest, rem + 1, got =>
    match r with
    | .ok 0 => .ok got
    | .ok n => readLoop rest (rem + 1 - min n (rem + 1)) (got + min n (rem + 1))
    | .error .EINTR => readLoop rest (rem + 1) got
    | .error e => .error e

/-- Open followed by the read loop into the fixed 1024-byte buffer,
returning the total number of bytes read. -/
def readStatFile (openO : List (Except Errno Unit)) (readO : List (Except Errno Nat)) :
    Except Errno Nat :=
  match openLoop openO with
  | .error e => .error e
  | .ok _ => readLoop readO 1024 0

/-- RawProcessInfo::parse as a whole: read the file then parse the bytes
that landed in the buffer (the first len bytes of the file contents). -/
def rawParse (openO : List (Except Errno Unit)) (readO : List (Except Errno Nat))
    (content : List Nat) : Except Errno RawProcessInfo :=
  match readStatFile openO readO with
  | .error e => .error e
  | .ok len => parseStat (content.take len)

/-! ### Helper lemmas about parser errors -/

theorem parseNum_error {buf : List Nat} {e : Errno}
    (h : parseNum buf = .error e) : e = .EINVAL := by
  unfold parseNum at h
  by_cases h2 : (fromRadix10Signed buf).2 = 0 <;> simp [h2] at h
  exact h.symm

theorem skipChar_error {buf : List Nat} {ch : Nat} {e : Errno}
    (h : skipChar buf ch = .error e) : e = .EINVAL := by
  unfold skipChar at h
  match buf with
  | [] => simp at h; exact h.symm
  | b :: rest =>
    by_cases hb : b = ch <;> simp [hb] at h
    exact h.symm

theorem skipSpace_error {buf : List Nat} {e : Errno}
    (h : skipSpace buf = .error e) : e = .EINVAL :=
  skipChar_error h

theorem parseTail_error {buf : List Nat} {e : Errno}
    (h : parseTail buf = .error e) : e = .EINVAL := by
  unfold parseTail at h
  repeat' split at h
  all_goals cases h
  all_goals
    first
      | rfl
      | exact parseNum_error (by assumption)
      | exact skipSpace_error (by assumption)

theorem parseAfterComm_error {pid : Int} {buf : List Nat} {e : Errno}
    (h : parseAfterComm pid buf = .error e) : e = .EINVAL := by
  unfold parseAfterComm at h
  repeat' split at h
  all_goals cases h
  all_goals
    first
      | rfl
      | exact parseTail_error (by assumption)

theorem statHead_error {buf : List Nat} {e : Errno}
    (h : statHead buf = .error e) : e = .EINVAL := by
  unfold statHead at h
  repeat' split at h
  all_goals cases h
  all_goals
    first
      | rfl
      | exact parseNum_error (by assumption)
      | exact skipSpace_error (by assumption)
      | exact skipChar_error (by assumption)

theorem parseStat_error {buf : List Nat} {e : Errno}
    (h : parseStat buf = .error e) : e = .EINVAL := by
  unfold parseStat at h
  split at h
  · cases h; exact statHead_error (by assumption)
  · exact parseAfterComm_error h

theorem openLoop_error {o : List (Except Errno Unit)} {e : Errno}
    (h : openLoop o = .error e) : e ≠ .EINTR := by
  induction o with
  | nil => simp [openLoop] at h
  | cons r rest ih =>
    match r with
    | .ok _ => simp [openLoop] at h
    | .error .EINTR => exact ih (by simpa [openLoop] using h)
    | .error .EINVAL => rw [show openLoop (.error .EINVAL :: rest) = .error .EINVAL from rfl] at h; exact (Except.error.inj h) ▸ (by intro hc; cases hc)
    | .error .EAGAIN => rw [show openLoop (.error .EAGAIN :: rest) = .error .EAGAIN from rfl] at h; exact (Except.error.inj h) ▸ (by intro hc; cases hc)
    | .error .ENOENT => rw [show openLoop (.error .ENOENT :: rest) = .error .ENOENT from rfl] at h; exact (Except.error.inj h) ▸ (by intro hc; cases hc)
    | .error .ENOTTY => rw [show openLoop (.error .ENOTTY :: rest) = .error .ENOTTY from rfl] at h; exact (Except.error.inj h) ▸ (by intro hc; cases hc)
    | .error .ENOMEM => rw [show openLoop (.error .ENOMEM :: rest) = .error .ENOMEM from rfl] at h; exact (Except.error.inj h) ▸ (by intro hc; cases hc)
    | .error .ENOTDIR => rw [show openLoop (.error .ENOTDIR :: rest) = .error .ENOTDIR from rfl] at h; exact (Except.error.inj h) ▸ (by intro hc; cases hc)
    | .error (.other c) => rw [show openLoop (.error (.other c) :: rest) = .error (.other c) from rfl] at h; exact (Except.error.inj h) ▸ (by intro hc; cases hc)

theorem readLoop_error {o : List (Except Errno Nat)} {rem got : Nat} {e : Errno}
    (h : readLoop o rem got = .error e) : e ≠ .EINTR := by
  induction o generalizing rem got with
  | nil =>
    match rem with
    | 0 => simp [readLoop] at h
    | _ + 1 => simp [readLoop] at h
  | cons r rest ih =>
    match rem with
    | 0 => simp [readLoop] at h
    | rm + 1 =>
      match r with
      | .ok 0 => simp [readLoop] at h
      | .ok (n + 1) => exact ih (by simpa [readLoop] using h)
      | .error .EINTR => exact ih (by simpa [readLoop] using h)
      | .error .EINVAL => rw [show readLoop (.error .EINVAL :: rest) (rm + 1) got = .error .EINVAL from rfl] at h; exact (Except.error.inj h) ▸ (by intro hc; cases hc)
      | .error .EAGAIN => rw [show readLoop (.error .EAGAIN :: rest) (rm + 1) got = .error .EAGAIN from rfl] at h; exact (Except.error.inj h) ▸ (by intro hc; cases hc)
      | .error .ENOENT => rw [show readLoop (.error .ENOENT :: rest) (rm + 1) got = .error .ENOENT from rfl] at h; exact (Except.error.inj h) ▸ (by intro hc; cases hc)
      | .error .ENOTTY => rw [show readLoop (.error .ENOTTY :: rest) (rm + 1) got = .error .ENOTTY from rfl] at h; exact (Except.error.inj h) ▸ (by intro hc; cases hc)
      | .error .ENOMEM => rw [show readLoop (.error .ENOMEM :: rest) (rm + 1) got = .error .ENOMEM from rfl] at h; exact (Except.error.inj h) ▸ (by intro hc; cases hc)
      | .error .ENOTDIR => rw [show readLoop (.error .ENOTDIR :: rest) (rm + 1) got = .error .ENOTDIR from rfl] at h; exact (Except.error.inj h) ▸ (by intro hc; cases hc)
      | .error (.other c) => rw [show readLoop (.error (.other c) :: rest) (rm + 1) got = .error (.other c) from rfl] at h; exact (Except.error.inj h) ▸ (by intro hc; cases hc)

/-! ## Claim C1 -/

/-- A synthetic status record whose command-name field contains a
closing parenthesis and an embedded space: pid 2, command name a) b,
state S, ppid 3, pgrp 4, session 5, tty 6. -/
def c1Record : List Nat :=
  [50, 32, 40, 97, 41, 32, 98, 41, 32, 83, 32, 51, 32, 52, 32, 53, 32, 54]

/-- C1: the claim states that parsing locates the end of the command
name at the LAST closing parenthesis, so that session id and tty device
are parsed correctly even when the name contains a parenthesis and a
space.  The source instead searches for the FIRST closing parenthesis
(memchr at pinfo.rs line 92), so on the record above, whose correct
reading is session 5 and tty 6, parsing resynchronises inside the
command name and rejects the record with EINVAL. -/
theorem c1_first_paren_rejects_record :
    parseStat c1Record = .error .EINVAL := by rfl

/-! ## Claim C10 -/

/-- C10: after the command-name field the parser requires the next space
in the remaining buffer to sit at index exactly 1 (a one-byte
process-state field): whenever statHead lands the parser on a remaining
buffer whose first space is at any other index, or absent, the whole
parse fails with EINVAL; and a record is accepted only when that space
sits at index 1. -/
theorem c10_state_field_one_byte (buf : List Nat) (pid : Int) (r : List Nat)
    (h : statHead buf = .ok (pid, r)) :
    (memchr 32 r ≠ some 1 → parseStat buf = .error .EINVAL) ∧
    (∀ info, parseStat buf = .ok info → memchr 32 r = some 1) := by
  have hps : parseStat buf = parseAfterComm pid r := by
    unfold parseStat
    rw [h]
  constructor
  · intro hne
    rw [hps]
    unfold parseAfterComm
    cases hm : memchr 32 r with
    | none => rfl
    | some n =>
      cases n with
      | zero => rfl
      | succ k =>
        cases k with
        | zero => exact absurd hm hne
        | succ m => rfl
  · intro info hok
    rw [hps] at hok
    unfold parseAfterComm at hok
    cases hm : memchr 32 r with
    | none => rw [hm] at hok; cases hok
    | some n =>
      cases n with
      | zero => rw [hm] at hok; cases hok
      | succ k =>
        cases k with
        | zero => rfl
        | succ m => rw [hm] at hok; cases hok

/-- A record with a two-byte state field: pid 7, command name x, then SS
where a single state byte is expected. -/
def c10Record : List Nat :=
  [55, 32, 40, 120, 41, 32, 83, 83, 32, 51, 32, 52, 32, 53, 32, 54]

/-- Remaining buffer after the command-name field of c10Record. -/
def c10Rest : List Nat := [83, 83, 32, 51, 32, 52, 32, 53, 32, 54]

theorem c10_state_field_one_byte_witness :
    statHead c10Record = .ok (7, c10Rest) ∧
    ((memchr 32 c10Rest ≠ some 1 → parseStat c10Record = .error .EINVAL) ∧
     (∀ info, parseStat c10Record = .ok info → memchr 32 c10Rest = some 1)) :=
  ⟨by rfl, c10_state_field_one_byte c10Record 7 c10Rest (by rfl)⟩

/-! ## Claim C4 -/

/-- C4 counterexample: the claim states that would-block (EAGAIN)
conditions from the underlying open and read calls never appear in the
returned result.  But the read retry loop (pinfo.rs lines 73-83) retries
only EINTR: a read that reports EAGAIN is returned to the caller
unchanged. -/
theorem c4_eagain_surfaces :
    rawParse [.ok ()] [.error .EAGAIN] [] = .error .EAGAIN := by rfl

/-- C4 amended: interrupted (EINTR) results really are fully absorbed by
the retry loops around openat and read, and the parsing stage itself
only ever produces EINVAL, so the error returned by the text-record
reader is never EINTR.  (EAGAIN, contrary to the claim, is not retried
and propagates; see the counterexample.) -/
theorem c4_eintr_never_surfaces (openO : List (Except Errno Unit))
    (readO : List (Except Errno Nat)) (content : List Nat) (e : Errno)
    (h : rawParse openO readO content = .error e) : e ≠ .EINTR := by
  unfold rawParse at h
  cases hf : readStatFile openO readO with
  | error e1 =>
    rw [hf] at h
    have he1 : e1 ≠ Errno.EINTR := by
      unfold readStatFile at hf
      cases ho : openLoop openO with
      | error e2 => rw [ho] at hf; exact (Except.error.inj hf) ▸ openLoop_error ho
      | ok u => rw [ho] at hf; exact readLoop_error hf
    exact (Except.error.inj h) ▸ he1
  | ok len =>
    rw [hf] at h
    intro hc
    subst hc
    have := parseStat_error h
    cases this

theorem c4_eintr_never_surfaces_witness :
    rawParse [.error .ENOENT] [] [] = .error .ENOENT ∧ Errno.ENOENT ≠ Errno.EINTR :=
  ⟨by rfl, c4_eintr_never_surfaces [.error .ENOENT] [] [] .ENOENT (by rfl)⟩

/-! ## Growable buffers (src/linux/dir.rs)

Each buffer is modelled by its initialized bytes (the bytes in the range
zero to len, as a list) plus its capacity.  The reserve operations
mirror the three sources:
- ArrayBuffer has fixed capacity N and its reserve only checks the size;
- VecBuffer wraps a Vec and calls reserve_exact, whose contract grows
  the capacity to at least the requested size and preserves contents;
- CBuffer calls malloc and realloc, whose contract preserves the first
  min(old, new) bytes; the allocOk parameter models allocator success.
Each reserve returns the call result together with the buffer state
afterwards, so the claims can speak about the state on failure too. -/

/-- Fixed-capacity buffer backed by a byte array of size N. -/
structure ArrayBuf (N : Nat) where
  data : List Nat
deriving DecidableEq, Repr

/-- ArrayBuffer::reserve (dir.rs lines 367-374): error when the request
exceeds the fixed capacity, otherwise nothing to do. -/
def ArrayBuf.reserve {N : Nat} (b : ArrayBuf N) (size : Nat) :
    Except Errno Unit × ArrayBuf N :=
  if size > N then (.error .ENOMEM, b) else (.ok (), b)

/-- Vec-backed buffer. -/
structure VecBuf where
  data : List Nat
  cap : Nat
deriving DecidableEq, Repr

/-- VecBuffer::reserve (dir.rs lines 465-471): when the request is at
least the current length, reserve_exact the difference, which raises the
capacity to at least the request and keeps the contents. -/
def VecBuf.reserve (b : VecBuf) (size : Nat) : Except Errno Unit × VecBuf :=
  if b.data.length ≤ size then (.ok (), { b with cap := max b.cap size }) else (.ok (), b)

/-- malloc-backed buffer. -/
structure CBuf where
  data : List Nat
  cap : Nat
deriving DecidableEq, Repr

/-- CBuffer::reserve (dir.rs lines 589-606): grow through malloc or
realloc only when the request exceeds the capacity; a null result leaves
the buffer untouched and reports ENOMEM, otherwise realloc preserves the
old contents and the capacity becomes exactly the request. -/
def CBuf.reserve (b : CBuf) (size : Nat) (allocOk : Bool) :
    Except Errno Unit × CBuf :=
  if size > b.cap then
    if allocOk then (.ok (), { b with cap := size }) else (.error .ENOMEM, b)
  else (.ok (), b)

/-! ## Claim C8 -/

/-- C8: for all three buffer variants, every reserve call, succeeding or
not, reallocating or not, leaves the previously written bytes in the
range zero to old_len intact: reading them back gives the same contents
as before the call. -/
theorem c8_reserve_preserves_bytes :
    (∀ (N : Nat) (b : ArrayBuf N) (size : Nat),
       ((ArrayBuf.reserve b size).2.data.take b.data.length = b.data.take b.data.length)) ∧
    (∀ (b : VecBuf) (size : Nat),
       ((VecBuf.reserve b size).2.data.take b.data.length = b.data.take b.data.length)) ∧
    (∀ (b : CBuf) (size : Nat) (allocOk : Bool),
       ((CBuf.reserve b size allocOk).2.data.take b.data.length = b.data.take b.data.length)) := by
  refine ⟨fun N b size => ?_, fun b size => ?_, fun b size allocOk => ?_⟩
  · unfold ArrayBuf.reserve
    split <;> rfl
  · unfold VecBuf.reserve
    split <;> rfl
  · unfold CBuf.reserve
    split
    · split <;> rfl
    · rfl

/-! ## Directory refill loop (src/linux/dir.rs, DirIterator::next, inner
fn getdents64, lines 250-267)

The kernel is modelled deterministically: the batch directory-read
fails with EINVAL exactly when the buffer capacity is below the size
needed for the next record batch, and succeeds otherwise (EINTR retries
change nothing in this deterministic model and are elided).  The loop
state is the buffer capacity; on EINVAL the source requests
reserve(capacity * 3 / 2).  The loop is given explicit fuel; running out
of fuel (the none result) means the loop has not terminated within that
many iterations. -/

/-- The 50 percent growth request of the source: capacity * 3 / 2. -/
def growCap (cap : Nat) : Nat := cap * 3 / 2

/-- Refill loop over a Vec-backed buffer: reserve never fails, the
capacity becomes the maximum of itself and the request. -/
def vecRefillLoop (need : Nat) : Nat → Nat → Option (Except Errno Nat)
  | 0, _ => none
  | fuel + 1, cap =>
    if cap < need then vecRefillLoop need fuel (max cap (growCap cap))
    else some (.ok cap)

/-- Refill loop over a malloc-backed buffer (allocation assumed to
succeed): the capacity becomes the request when the request is larger. -/
def cRefillLoop (need : Nat) : Nat → Nat → Option (Except Errno Nat)
  | 0, _ => none
  | fuel + 1, cap =>
    if cap < need then
      cRefillLoop need fuel (if growCap cap > cap then growCap cap else cap)
    else some (.ok cap)

/-- Refill loop over a fixed-capacity buffer of size N: reserve fails
with ENOMEM when the request exceeds N, ending the loop with an error;
otherwise the capacity stays N. -/
def arrayRefillLoop (need N : Nat) : Nat → Option (Except Errno Nat)
  | 0 => none
  | fuel + 1 =>
    if N < need then
      if growCap N > N then some (.error .ENOMEM)
      else arrayRefillLoop need N fuel
    else some (.ok N)

theorem growCap_ge_succ {cap : Nat} (h : 2 ≤ cap) : cap + 1 ≤ growCap cap := by
  unfold growCap
  omega

theorem vecRefillLoop_term (need : Nat) :
    ∀ (k cap : Nat), 2 ≤ cap → need ≤ cap + k → (vecRefillLoop need (k + 1) cap).isSome := by
  intro k
  induction k with
  | zero =>
    intro cap hcap hle
    unfold vecRefillLoop
    have : ¬ cap < need := by omega
    simp [this]
  | succ m ih =>
    intro cap hcap hle
    unfold vecRefillLoop
    by_cases hlt : cap < need
    · simp only [hlt, if_true]
      have hg := growCap_ge_succ hcap
      have hmax : max cap (growCap cap) = growCap cap := by omega
      rw [hmax]
      exact ih (growCap cap) (by omega) (by omega)
    · simp [hlt]

theorem cRefillLoop_term (need : Nat) :
    ∀ (k cap : Nat), 2 ≤ cap → need ≤ cap + k → (cRefillLoop need (k + 1) cap).isSome := by
  intro k
  induction k with
  | zero =>
    intro cap hcap hle
    unfold cRefillLoop
    have : ¬ cap < need := by omega
    simp [this]
  | succ m ih =>
    intro cap hcap hle
    unfold cRefillLoop
    by_cases hlt : cap < need
    · simp only [hlt, if_true]
      have hg := growCap_ge_succ hcap
      have hcond : growCap cap > cap := by omega
      rw [if_pos hcond]
      exact ih (growCap cap) (by omega) (by omega)
    · simp [hlt]

/-! ## Claim C2 -/

/-- C2 counterexample: the claim states the retry loop terminates for
every initial capacity, including zero.  But the growth request is
capacity * 3 / 2, which is 0 at capacity 0 and 1 at capacity 1, so when
the kernel keeps answering that the buffer is too small (here any batch
needing 24 bytes or more), the capacity never changes and the loop never
finishes, for the Vec-backed buffer and for the fixed buffer of size 1
alike. -/
theorem c2_zero_capacity_never_terminates :
    (¬ ∃ fuel, (vecRefillLoop 24 fuel 0).isSome) ∧
    (¬ ∃ fuel, (vecRefillLoop 24 fuel 1).isSome) ∧
    (¬ ∃ fuel, (arrayRefillLoop 24 1 fuel).isSome) := by
  have hv : ∀ (c : Nat), c ≤ 1 → ∀ fuel, (vecRefillLoop 24 fuel c).isSome = false := by
    intro c hc fuel
    induction fuel generalizing c with
    | zero => rfl
    | succ m ih =>
      unfold vecRefillLoop
      have hlt : c < 24 := by omega
      have hg : max c (growCap c) = c := by
        interval_cases c <;> rfl
      rw [if_pos hlt, hg]
      exact ih c hc
  have ha : ∀ fuel, (arrayRefillLoop 24 1 fuel).isSome = false := by
    intro fuel
    induction fuel with
    | zero => rfl
    | succ m ih =>
      unfold arrayRefillLoop
      rw [if_pos (by omega : (1 : Nat) < 24), if_neg (by decide : ¬ growCap 1 > 1)]
      exact ih
  refine ⟨fun ⟨fuel, hf⟩ => ?_, fun ⟨fuel, hf⟩ => ?_, fun ⟨fuel, hf⟩ => ?_⟩
  · rw [hv 0 (by omega) fuel] at hf; cases hf
  · rw [hv 1 (by omega) fuel] at hf; cases hf
  · rw [ha fuel] at hf; cases hf

/-- C2 amended: for every initial capacity of at least 2, each refill
step terminates for all three buffer variants: with enough fuel the loop
reaches a successful batch read (Vec-backed and malloc-backed buffers,
whose capacity strictly grows under the 50 percent rule once it is at
least 2) or the non-transient ENOMEM error (fixed-capacity buffer whose
growth request exceeds its size).  A zero-byte successful read is a
success of the batch read and ends the sequence normally in the
iterator, so it is covered by the success case.  At capacities 0 and 1
the growth request capacity * 3 / 2 does not grow the buffer and the
loop need not terminate (see the counterexample). -/
theorem c2_refill_terminates_from_two (need cap N : Nat)
    (hcap : 2 ≤ cap) (hN : 2 ≤ N) :
    (∃ fuel, (vecRefillLoop need fuel cap).isSome) ∧
    (∃ fuel, (cRefillLoop need fuel cap).isSome) ∧
    (∃ fuel, (arrayRefillLoop need N fuel).isSome) := by
  refine ⟨⟨need + 1, vecRefillLoop_term need need cap hcap (by omega)⟩,
          ⟨need + 1, cRefillLoop_term need need cap hcap (by omega)⟩,
          ⟨1, ?_⟩⟩
  unfold arrayRefillLoop
  by_cases hlt : N < need
  · rw [if_pos hlt, if_pos (by unfold growCap; omega : growCap N > N)]
    rfl
  · rw [if_neg hlt]
    rfl

theorem c2_refill_terminates_from_two_witness :
    2 ≤ 2 ∧
    ((∃ fuel, (vecRefillLoop 24 fuel 2).isSome) ∧
     (∃ fuel, (cRefillLoop 24 fuel 2).isSome) ∧
     (∃ fuel, (arrayRefillLoop 24 2 fuel).isSome)) :=
  ⟨by decide, c2_refill_terminates_from_two 24 2 2 (by decide) (by decide)⟩

/-! ## Directory handle and stream (src/linux/dir.rs, Dir and
DirIterator)

The kernel side of an open directory is modelled as the fixed list of
its entries (abstract entry identifiers) together with the kernel read
position, counted in entries.  Each record returned by the batch read
carries its resume offset (the kernel d_off of the record), which for
entry number i is i + 1: seeking to it resumes right after that entry.
The handle additionally stores the tell cursor, updated to the offset of
each yielded entry exactly as the source does (dir.rs line 285).

A stream instance holds the handle plus the unconsumed records of the
current batch.  A new instance starts with an empty batch: in the
source, whenever a second instance is built over the same handle (the
scandir resume at mod.rs line 175), the shared dirent buffer has length
zero, because the previous instance either drained it to a zero-length
batch read or the whole scan already returned. -/

/-- Kernel state of one open directory: entry list, read position,
stored resume cursor. -/
structure DirSt where
  entries : List Nat
  pos : Nat
  tell : Nat
deriving DecidableEq, Repr

/-- DirIterator::new (dir.rs lines 220-239): a nonzero stored cursor is
first applied by an absolute seek, setting the kernel read position. -/
def dirIterNew (d : DirSt) : DirSt :=
  if d.tell ≠ 0 then { d with pos := d.tell } else d

/-- A stream instance: the handle plus the unconsumed records of the
current batch, each paired with its resume offset. -/
structure IterSt where
  dir : DirSt
  buffered : List (Nat × Nat)
deriving DecidableEq, Repr

/-- One batch read: up to batch entries starting at the kernel position,
each with its resume offset. -/
def refillBatch (es : List Nat) (pos batch : Nat) : List (Nat × Nat) :=
  ((es.drop pos).take batch).zip (List.range' (pos + 1) batch)

/-- DirIterator::next (dir.rs lines 250-289): yield from the buffered
batch when it is nonempty; otherwise refill from the kernel position,
and a resulting empty batch ends the sequence.  Yielding an entry
advances the buffer and stores the entry's resume offset in the handle's
tell cursor. -/
def iterNext (batch : Nat) (st : IterSt) : Option (Nat × IterSt) :=
  match st.buffered with
  | (e, off) :: rest =>
    some (e, { dir := { st.dir with tell := off }, buffered := rest })
  | [] =>
    match refillBatch st.dir.entries st.dir.pos batch with
    | [] => none
    | (e, off) :: rest =>
      some (e, { dir := { entries := st.dir.entries,
                          pos := st.dir.pos + (rest.length + 1),
                          tell := off },
                 buffered := rest })

/-- Run the stream to exhaustion, collecting the yielded entries; the
fuel bounds the number of next calls. -/
def drainIter (batch : Nat) : Nat → IterSt → List Nat
  | 0, _ => []
  | fuel + 1, st =>
    match iterNext batch st with
    | none => []
    | some (e, st') => e :: drainIter batch fuel st'

/-- The entries a stream state has still to yield: the buffered batch
tail followed by the entries the kernel has not handed out yet. -/
def toYield (st : IterSt) : List Nat :=
  st.buffered.map Prod.fst ++ st.dir.entries.drop st.dir.pos

theorem refillBatch_map_fst (es : List Nat) (pos batch : Nat) :
    (refillBatch es pos batch).map Prod.fst = (es.drop pos).take batch := by
  unfold refillBatch
  apply List.map_fst_zip
  rw [List.length_range']
  exact List.length_take_le _ _

theorem refillBatch_ne_nil {es : List Nat} {pos batch : Nat} (hb : 1 ≤ batch)
    {x : Nat} {xs : List Nat} (hdrop : es.drop pos = x :: xs) :
    refillBatch es pos batch ≠ [] := by
  unfold refillBatch
  rw [hdrop]
  match batch, hb with
  | b + 1, _ =>
    rw [List.take_succ_cons, List.range'_succ, List.zip_cons_cons]
    exact List.cons_ne_nil _ _

theorem iterNext_none {batch : Nat} {st : IterSt} (hb : 1 ≤ batch)
    (h : iterNext batch st = none) : toYield st = [] := by
  unfold iterNext at h
  match hbuf : st.buffered with
  | (e, off) :: rest => rw [hbuf] at h; cases h
  | [] =>
    rw [hbuf] at h
    unfold toYield
    rw [hbuf]
    simp only [List.map_nil, List.nil_append]
    match hdrop : st.dir.entries.drop st.dir.pos with
    | [] => rfl
    | x :: xs =>
      exfalso
      have hne := refillBatch_ne_nil hb hdrop
      match hr : refillBatch st.dir.entries st.dir.pos batch with
      | [] => exact hne hr
      | (a, b) :: r => rw [hr] at h; cases h

theorem iterNext_some {batch : Nat} {st st' : IterSt} {e : Nat}
    (h : iterNext batch st = some (e, st')) :
    toYield st = e :: toYield st' := by
  unfold iterNext at h
  match hbuf : st.buffered with
  | (a, off) :: rest =>
    rw [hbuf] at h
    have h2 := Option.some.inj h
    have he : a = e := congrArg Prod.fst h2
    have hst : ({ dir := { st.dir with tell := off },
                  buffered := rest } : IterSt) = st' := congrArg Prod.snd h2
    subst he
    subst hst
    unfold toYield
    rw [hbuf]
    rfl
  | [] =>
    rw [hbuf] at h
    match hr : refillBatch st.dir.entries st.dir.pos batch with
    | [] => rw [hr] at h; cases h
    | (a, off) :: rest =>
      rw [hr] at h
      have h2 := Option.some.inj h
      have he : a = e := congrArg Prod.fst h2
      have hst := congrArg Prod.snd h2
      subst he
      subst hst
      have hmap : a :: rest.map Prod.fst
          = (st.dir.entries.drop st.dir.pos).take batch := by
        have hm := refillBatch_map_fst st.dir.entries st.dir.pos batch
        rw [hr] at hm
        simpa using hm
      unfold toYield
      rw [hbuf]
      simp only [List.map_nil, List.nil_append]
      have hklen : ((st.dir.entries.drop st.dir.pos).take batch).length
          = rest.length + 1 := by
        rw [← hmap]; simp
      have hkb : rest.length + 1 ≤ batch := by
        have := List.length_take_le batch (st.dir.entries.drop st.dir.pos)
        omega
      have htake : (st.dir.entries.drop st.dir.pos).take (rest.length + 1)
          = a :: rest.map Prod.fst := by
        have h1 : (st.dir.entries.drop st.dir.pos).take (rest.length + 1)
            = ((st.dir.entries.drop st.dir.pos).take batch).take (rest.length + 1) := by
          rw [List.take_take, Nat.min_eq_left hkb]
        rw [h1, ← hmap]
        exact List.take_of_length_le (by simp)
      calc st.dir.entries.drop st.dir.pos
        = (st.dir.entries.drop st.dir.pos).take (rest.length + 1)
          ++ (st.dir.entries.drop st.dir.pos).drop (rest.length + 1) :=
          (List.take_append_drop _ _).symm
        _ = (a :: rest.map Prod.fst)
          ++ st.dir.entries.drop (st.dir.pos + (rest.length + 1)) := by
          rw [htake, List.drop_drop, Nat.add_comm]
        _ = a :: (rest.map Prod.fst
          ++ st.dir.entries.drop (st.dir.pos + (rest.length + 1))) := rfl

theorem drainIter_eq {batch : Nat} (hb : 1 ≤ batch) :
    ∀ (fuel : Nat) (st : IterSt), (toYield st).length < fuel →
      drainIter batch fuel st = toYield st := by
  intro fuel
  induction fuel with
  | zero => intro st h; omega
  | succ m ih =>
    intro st h
    unfold drainIter
    match hn : iterNext batch st with
    | none => exact (iterNext_none hb hn).symm
    | some (e, st') =>
      show e :: drainIter batch m st' = toYield st
      have hy := iterNext_some hn
      rw [hy]
      congr 1
      apply ih
      have hlen : (toYield st).length = (toYield st').length + 1 := by
        rw [hy]; rfl
      omega

/-! ## Claim C3 -/

/-- C3: a handle whose iteration was suspended after consuming t entries
stores tell cursor t.  Building a new stream instance over it (whatever
the kernel read position p drifted to through batch readahead) first
applies an absolute seek to the nonzero stored cursor, and draining the
new instance yields exactly the entries not yet consumed, each exactly
once, in the original relative order. -/
theorem c3_resume_yields_remaining (es : List Nat) (t p batch : Nat)
    (ht : t ≠ 0) (hle : t ≤ es.length) (hb : 1 ≤ batch) :
    (dirIterNew ⟨es, p, t⟩).pos = t ∧
    drainIter batch (es.length - t + 1) ⟨dirIterNew ⟨es, p, t⟩, []⟩ = es.drop t := by
  have hnew : dirIterNew ⟨es, p, t⟩ = ⟨es, t, t⟩ := by
    unfold dirIterNew
    simp [ht]
  refine ⟨by rw [hnew], ?_⟩
  rw [hnew]
  have hty : toYield ⟨⟨es, t, t⟩, []⟩ = es.drop t := by
    simp [toYield]
  rw [← hty]
  apply drainIter_eq hb
  rw [hty, List.length_drop]
  omega

theorem c3_resume_yields_remaining_witness :
    (1 : Nat) ≠ 0 ∧ 1 ≤ 3 ∧ 1 ≤ 2 ∧
    ((dirIterNew ⟨[10, 20, 30], 3, 1⟩).pos = 1 ∧
     drainIter 2 3 ⟨dirIterNew ⟨[10, 20, 30], 3, 1⟩, []⟩ = [20, 30]) :=
  ⟨by decide, by decide, by decide,
   c3_resume_yields_remaining [10, 20, 30] 1 3 2 (by decide) (by decide) (by decide)⟩

/-! ## Filesystem model for the terminal path resolver (src/linux/mod.rs)

The resolver is verified over a static filesystem: a tree whose leaves
are files carrying their type and device number and whose inner nodes
are directories with named entries.  This models a run without
concurrent filesystem mutation.  fstatat and openat walk the tree with
the kernel's errors: ENOENT for a missing component, ENOTDIR when a
walk descends inside a non-directory.  getdents64 serves each open
directory's entry list in order, in batches whose sizes are drawn from
an oracle list, and the d_type hint of a delivered record is the
entry's actual type (so the source's hint-or-fstatat type resolution at
mod.rs lines 144-150 collapses to the actual type).  The dirent buffer
is modelled as the record list it currently holds and is SHARED between
the recursive scandir activations exactly as in the source: a child
activation created by scandir's recursion starts reading the buffer
from index 0 while the buffer still holds the parent's current batch
(DirIterator::new, dir.rs lines 223-239, never clears it and a fresh fd
has tell zero, so no seek and no refill happen first), and therefore
the child first re-processes the parent's stale records against its own
directory.  The caller-supplied dirent buffer and path buffer start
empty, as the default constructors build them.  Byte 46 is the dot, 47
the slash, 0 the terminator. -/

/-- File types distinguished by the resolver. -/
inductive FileType where
  | character
  | directory
  | block
  | fifo
  | regular
  | link
  | socket
  | unknown
deriving DecidableEq, Repr

/-- A filesystem node: a file with type and device number, or a
directory with named entries. -/
inductive FsNode where
  | file (ft : FileType) (rdev : Dev)
  | dir (entries : List (List Nat × FsNode))

/-- Name lookup in a directory entry list (first match). -/
def lookupEnt (nm : List Nat) : List (List Nat × FsNode) → Option FsNode
  | [] => none
  | (name, node) :: rest => if name = nm then some node else lookupEnt nm rest

/-- The file type fstatat reports for a node. -/
def nodeType : FsNode → FileType
  | FsNode.file ft _ => ft
  | FsNode.dir _ => FileType.directory

/-- The device number fstatat reports for a node. -/
def nodeRdev : FsNode → Dev
  | FsNode.file _ d => d
  | FsNode.dir _ => ⟨0, 0⟩

/-- Path splitting into nonempty components (slash-separated), with the
accumulator holding the current component reversed. -/
def splitPushGo (acc : List Nat) : List Nat → List (List Nat)
  | [] => if acc = [] then [] else [acc.reverse]
  | b :: rest =>
    if b = 47 then
      if acc = [] then splitPushGo [] rest
      else acc.reverse :: splitPushGo [] rest
    else splitPushGo (b :: acc) rest

/-- Components of a path byte string. -/
def splitPath (p : List Nat) : List (List Nat) := splitPushGo [] p

/-- Decimal digits of a natural number (ASCII), as itoap writes them. -/
def decBytes (n : Nat) : List Nat :=
  if h : n < 10 then [48 + n]
  else decBytes (n / 10) ++ [48 + n % 10]
decreasing_by exact Nat.div_lt_self (by omega) (by omega)

/-- Whether a byte string occurs as an entry name anywhere in the tree
below an entry list. -/
def nameInTree (nm : List Nat) : List (List Nat × FsNode) → Bool
  | [] => false
  | (name, FsNode.file _ _) :: rest => name = nm || nameInTree nm rest
  | (name, FsNode.dir es) :: rest =>
    name = nm || nameInTree nm es || nameInTree nm rest

/-- The guess table (mod.rs lines 260-279): console major 4 maps to tty
below 64 minors and ttyS above, pseudoterminal major 136 to pts slash
minor, the two serial-adapter majors 166 and 188 to ttyACM and ttyUSB;
any other major has no guess. -/
def guessName (rdev : Dev) : Option (List Nat) :=
  if rdev.major = 4 then
    if rdev.minor < 64 then some ([116, 116, 121] ++ decBytes rdev.minor)
    else some ([116, 116, 121, 83] ++ decBytes (rdev.minor - 64))
  else if rdev.major = 136 then some ([112, 116, 115, 47] ++ decBytes rdev.minor)
  else if rdev.major = 166 then some ([116, 116, 121, 65, 67, 77] ++ decBytes rdev.minor)
  else if rdev.major = 188 then some ([116, 116, 121, 85, 83, 66] ++ decBytes rdev.minor)
  else none

/-- The resolver result: device number, path buffer bytes, offset of the
name within the buffer. -/
structure TtyInfoM where
  dev : Dev
  buf : List Nat
  offset : Nat
deriving DecidableEq, Repr

/-- fstatat and openat path walk relative to an open node (mod.rs
statat at line 95, Dir::open_at at dir.rs line 24): each component is
looked up in the current directory; a missing component gives ENOENT, a
walk that has to descend inside a non-directory gives ENOTDIR. -/
def resolveGo : FsNode → List (List Nat) → Except Errno FsNode
  | n, [] => .ok n
  | FsNode.file _ _, _ :: _ => .error .ENOTDIR
  | FsNode.dir es, c :: rest =>
    match lookupEnt c es with
    | some n => resolveGo n rest
    | none => .error .ENOENT

/-- fstatat of a path string relative to an open node; the empty
pathname is rejected with ENOENT as the kernel rejects it. -/
def statPath (n : FsNode) (p : List Nat) : Except Errno FsNode :=
  match splitPath p with
  | [] => .error .ENOENT
  | c :: rest => resolveGo n (c :: rest)

/-- Dir::open_at (dir.rs lines 24-41): openat with O_DIRECTORY — the
resolved node must be a directory, otherwise the open fails ENOTDIR. -/
def openDirAt (n : FsNode) (p : List Nat) : Except Errno (List (List Nat × FsNode)) :=
  match statPath n p with
  | .error e => .error e
  | .ok (FsNode.dir es) => .ok es
  | .ok (FsNode.file _ _) => .error .ENOTDIR

/-- try_path_guessing (mod.rs lines 62-92): fstatat the guessed name at
the open root.  ENOENT falls through to the scan; any other error —
such as ENOTDIR when the pts component of a pts/N guess exists but is
not a directory — is fatal and propagates.  On a resolved node the
guess hits only when the node is a character device with the target
device number; then slash, name, NUL are appended to the path buffer;
otherwise the guess falls through. -/
def tryGuess (es : List (List Nat × FsNode)) (g : List Nat) (tty : Dev)
    (path : List Nat) : Except Errno (Option Unit × List Nat) :=
  match statPath (FsNode.dir es) g with
  | .error e => if e = .ENOENT then .ok (none, path) else .error e
  | .ok n =>
    if nodeType n = FileType.character ∧ nodeRdev n = tty then
      .ok (some (), path ++ 47 :: (g ++ [0]))
    else .ok (none, path)

/-- A directory record as getdents64 delivers it: the entry name, the
d_type hint, and the kernel offset of the following entry (the off
field DirIterator stores into Dir.tell when the record is consumed). -/
structure DRec where
  name : List Nat
  ft : FileType
  roff : Nat
deriving DecidableEq, Repr

/-- The record sequence getdents64 serves for a directory whose entry
list is es, starting the offset numbering at i: the entries in order,
the record of entry number j carrying offset j + 1. -/
def listingGo (i : Nat) : List (List Nat × FsNode) → List DRec
  | [] => []
  | (nm, n) :: rest => ⟨nm, nodeType n, i + 1⟩ :: listingGo (i + 1) rest

/-- The full record sequence of a directory. -/
def listingOf (es : List (List Nat × FsNode)) : List DRec := listingGo 0 es

/-- One getdents64 refill: the records of the directory listing from
the kernel position, batched by the oracle (the head entry b yields at
most b + 1 records; an exhausted oracle yields all remaining records).
An empty batch is exactly the end of the directory. -/
def takeBatch (o : List Nat) (l : List DRec) (pos : Nat) : List DRec × List Nat :=
  match o with
  | [] => (l.drop pos, [])
  | b :: rest => ((l.drop pos).take (b + 1), rest)

/-- One activation of scandir (mod.rs lines 126-182) as a fuel-indexed
step function.  Arguments: fuel, the entry list of the open directory
(the resolution base of its dupfd), the kernel read position of its fd,
its Dir.tell field, the shared dirent buffer as the record list it
holds, the iterator's remaining view of that buffer (the records past
the iterator offset — an iterator at offset 0 sees the whole buffer),
the getdents64 batch oracle, and the shared path buffer.  The result is
none when fuel runs out, otherwise the source's result together with
the final shared state (buffer, oracle rest, path).  The iterator logic
is DirIterator::next inlined: when a record remains it is consumed
(storing its off field into tell), else the buffer is reset and
refilled from the directory position, and an empty refill ends the
activation without a match, leaving the buffer empty.  Dot and dot-dot
names are skipped with no syscall.  A character-hinted record is
fstatat'ed BY NAME at the open directory — for a stale replayed record
this resolves against the wrong directory, and an absent name aborts
the whole scan — and it matches exactly when the resolved node's device
number equals the target (try_path, mod.rs lines 104-124, compares only
rdev).  A directory-hinted record is opened by name (open_at with
O_DIRECTORY, aborting on its errors) and the recursive activation
starts with the SAME buffer, seen in full from index 0, and the same
path; if it reports no match the path is truncated to its pre-call
length (set_len, line 172) and the iterator is re-created over the
buffer the child left, seeking to tell when tell is nonzero.  Records
with any other hint are skipped. -/
def scanGo (tty : Dev) :
    Nat → List (List Nat × FsNode) → Nat → Nat → List DRec → List DRec →
    List Nat → List Nat →
    Option (Except Errno (Option Unit × List DRec × List Nat × List Nat))
  | 0, _, _, _, _, _, _, _ => none
  | fuel + 1, es, pos, tell, buf, r :: rrest, o, path =>
      if r.name = [46] ∨ r.name = [46, 46] then
        scanGo tty fuel es pos r.roff buf rrest o path
      else if r.ft = FileType.character then
        match statPath (FsNode.dir es) r.name with
        | .error e => some (.error e)
        | .ok n =>
          if nodeRdev n = tty then
            some (.ok (some (), buf, o, path ++ 47 :: (r.name ++ [0])))
          else scanGo tty fuel es pos r.roff buf rrest o path
      else if r.ft = FileType.directory then
        match openDirAt (FsNode.dir es) r.name with
        | .error e => some (.error e)
        | .ok es2 =>
          match scanGo tty fuel es2 0 0 buf buf o path with
          | none => none
          | some (.error e) => some (.error e)
          | some (.ok (some u, buf2, o2, path2)) => some (.ok (some u, buf2, o2, path2))
          | some (.ok (none, buf2, o2, path2)) =>
            scanGo tty fuel es (if r.roff = 0 then pos else r.roff) r.roff buf2 buf2 o2
              (path2.take path.length)
      else scanGo tty fuel es pos r.roff buf rrest o path
  | fuel + 1, es, pos, tell, buf, [], o, path =>
      match takeBatch o (listingOf es) pos with
      | ([], o2) => some (.ok (none, [], o2, path))
      | (r1 :: rs, o2) =>
        scanGo tty fuel es (pos + (r1 :: rs).length) tell (r1 :: rs) (r1 :: rs) o2 path

/-- find_in_dir (mod.rs lines 198-215): push the root's bytes onto the
path buffer, open the root with O_DIRECTORY, try the guessed name, then
fall back to scandir, handing it the shared dirent buffer exactly as
the caller left it. -/
def findInDir (fs : FsNode) (fuel : Nat) (d g : List Nat) (tty : Dev)
    (buf : List DRec) (o : List Nat) (path : List Nat) :
    Option (Except Errno (Option Unit × List DRec × List Nat × List Nat)) :=
  match openDirAt fs d with
  | .error e => some (.error e)
  | .ok es =>
    match tryGuess es g tty (path ++ d) with
    | .error e => some (.error e)
    | .ok (some u, p2) => some (.ok (some u, buf, o, p2))
    | .ok (none, p2) => scanGo tty fuel es 0 0 buf buf o p2

/-- The candidate-root loop of by_device_with_buffers_in (mod.rs lines
283-294): one shared dirent buffer and one shared path buffer across
all roots, never reset between roots; a match stops the loop with the
name offset just past the current root's bytes and the separator,
exhaustion yields ENOENT, and any error aborts the whole loop. -/
def byDeviceGo (fs : FsNode) (fuel : Nat) (g : List Nat) (tty : Dev) :
    List (List Nat) → List DRec → List Nat → List Nat →
    Option (Except Errno TtyInfoM)
  | [], _, _, _ => some (.error .ENOENT)
  | d :: rest, buf, o, path =>
    match findInDir fs fuel d g tty buf o path with
    | none => none
    | some (.error e) => some (.error e)
    | some (.ok (some _, _, _, p2)) => some (.ok ⟨tty, p2, d.length + 1⟩)
    | some (.ok (none, buf2, o2, p2)) => byDeviceGo fs fuel g tty rest buf2 o2 p2

/-- TtyInfo::by_device_with_buffers_in (mod.rs lines 249-295): a major
outside the guess table is rejected with ENOTTY before any directory is
touched; otherwise the candidate-root loop runs with the empty dirent
buffer and empty path buffer the default constructors provide. -/
def byDevice (fs : FsNode) (dirs : List (List Nat)) (rdev : Dev)
    (o : List Nat) (fuel : Nat) : Option (Except Errno TtyInfoM) :=
  match guessName rdev with
  | none => some (.error .ENOTTY)
  | some g => byDeviceGo fs fuel g rdev dirs [] o []

/-- Specialisation of the resolver to a known guess: with the guess
table answering g, by_device runs the candidate-root loop on g from the
empty buffers. -/
theorem byDevice_guess_eq (fs : FsNode) (dirs : List (List Nat)) (rdev : Dev)
    (o : List Nat) (fuel : Nat) (g : List Nat) (hg : guessName rdev = some g) :
    byDevice fs dirs rdev o fuel = byDeviceGo fs fuel g rdev dirs [] o [] := by
  unfold byDevice
  rw [hg]

/-! ### Byte-level lemmas about guessed names -/

theorem decBytes_ne_nil (n : Nat) : decBytes n ≠ [] := by
  unfold decBytes
  split
  · simp
  · simp

theorem scanGo_none (tty : Dev) :
    ∀ (fuel : Nat) (es : List (List Nat × FsNode)) (pos tell : Nat)
      (buf rem : List DRec) (o : List Nat) (path : List Nat)
      (buf2 : List DRec) (o2 : List Nat) (path2 : List Nat),
      scanGo tty fuel es pos tell buf rem o path = some (.ok (none, buf2, o2, path2)) →
      path2 = path ∧ buf2 = []
  | 0, es, pos, tell, buf, rem, o, path, buf2, o2, path2, h => by
    unfold scanGo at h
    cases h
  | fuel + 1, es, pos, tell, buf, r :: rrest, o, path, buf2, o2, path2, h => by
    unfold scanGo at h
    by_cases hdot : r.name = [46] ∨ r.name = [46, 46]
    · rw [if_pos hdot] at h
      exact scanGo_none tty fuel es pos r.roff buf rrest o path buf2 o2 path2 h
    · rw [if_neg hdot] at h
      by_cases hch : r.ft = FileType.character
      · rw [if_pos hch] at h
        match hsp : statPath (FsNode.dir es) r.name with
        | .error e2 =>
          simp only [hsp] at h
          simp at h
        | .ok n =>
          simp only [hsp] at h
          by_cases hr : nodeRdev n = tty
          · rw [if_pos hr] at h
            simp at h
          · rw [if_neg hr] at h
            exact scanGo_none tty fuel es pos r.roff buf rrest o path buf2 o2 path2 h
      · rw [if_neg hch] at h
        by_cases hdir : r.ft = FileType.directory
        · rw [if_pos hdir] at h
          match hod : openDirAt (FsNode.dir es) r.name with
          | .error e2 =>
            simp only [hod] at h
            simp at h
          | .ok es2 =>
            simp only [hod] at h
            match hc : scanGo tty fuel es2 0 0 buf buf o path with
            | none =>
              simp only [hc] at h
              cases h
            | some (.error e2) =>
              simp only [hc] at h
              simp at h
            | some (.ok (some u, bufc, oc, pathc)) =>
              simp only [hc] at h
              simp at h
            | some (.ok (none, bufc, oc, pathc)) =>
              simp only [hc] at h
              have hchild := scanGo_none tty fuel es2 0 0 buf buf o path bufc oc pathc hc
              have hcont := scanGo_none tty fuel es (if r.roff = 0 then pos else r.roff)
                r.roff bufc bufc oc (pathc.take path.length) buf2 o2 path2 h
              refine ⟨?_, hcont.2⟩
              rw [hcont.1, hchild.1, List.take_length]
        · rw [if_neg hdir] at h
          exact scanGo_none tty fuel es pos r.roff buf rrest o path buf2 o2 path2 h
  | fuel + 1, es, pos, tell, buf, [], o, path, buf2, o2, path2, h => by
    unfold scanGo at h
    match htb : takeBatch o (listingOf es) pos with
    | ([], o3) =>
      simp only [htb] at h
      simp only [Option.some.injEq, Except.ok.injEq, Prod.mk.injEq, true_and] at h
      exact ⟨h.2.2.symm, h.1.symm⟩
    | (r1 :: rs, o3) =>
      simp only [htb] at h
      exact scanGo_none tty fuel es (pos + (r1 :: rs).length) tell (r1 :: rs) (r1 :: rs)
        o3 path buf2 o2 path2 h

/-! ### Provenance of scanned names -/

/-- Occurrence of a node somewhere in the tree below an entry list. -/
inductive NodeIn : FsNode → List (List Nat × FsNode) → Prop
  | here {nm : List Nat} {n : FsNode} {es : List (List Nat × FsNode)} :
      (nm, n) ∈ es → NodeIn n es
  | deeper {nm : List Nat} {es2 : List (List Nat × FsNode)} {n : FsNode}
      {es : List (List Nat × FsNode)} :
      (nm, FsNode.dir es2) ∈ es → NodeIn n es2 → NodeIn n es

theorem mem_nameInTree :
    ∀ (es : List (List Nat × FsNode)) (nm : List Nat) (n : FsNode),
      (nm, n) ∈ es → nameInTree nm es = true
  | [], nm, n, h => by cases h
  | (name, node) :: rest, nm, n, h => by
    rcases List.mem_cons.mp h with h1 | h1
    · have hname : name = nm := by
        have h2 := congrArg Prod.fst h1
        simpa using h2.symm
      cases node with
      | file ft rdev =>
        unfold nameInTree
        simp [hname]
      | dir es2 =>
        unfold nameInTree
        simp [hname]
    · have hr := mem_nameInTree rest nm n h1
      cases node with
      | file ft rdev =>
        unfold nameInTree
        simp [hr]
      | dir es2 =>
        unfold nameInTree
        simp [hr]

theorem dirMem_nameInTree :
    ∀ (es : List (List Nat × FsNode)) (nm0 : List Nat) (es2 : List (List Nat × FsNode))
      (nm : List Nat), (nm0, FsNode.dir es2) ∈ es → nameInTree nm es2 = true →
      nameInTree nm es = true
  | [], _, _, _, h, _ => by cases h
  | (name, node) :: rest, nm0, es2, nm, h, hin => by
    rcases List.mem_cons.mp h with h1 | h1
    · have hn : node = FsNode.dir es2 := by
        have h2 := congrArg Prod.snd h1
        simpa using h2.symm
      subst hn
      unfold nameInTree
      simp [hin]
    · have hr := dirMem_nameInTree rest nm0 es2 nm h1 hin
      cases node with
      | file ft rdev =>
        unfold nameInTree
        simp [hr]
      | dir es3 =>
        unfold nameInTree
        simp [hr]

theorem nodeIn_name {n0 : FsNode} {es : List (List Nat × FsNode)} (h : NodeIn n0 es) :
    ∀ {es2 : List (List Nat × FsNode)}, n0 = FsNode.dir es2 →
      ∀ {nm : List Nat} {n : FsNode}, (nm, n) ∈ es2 → nameInTree nm es = true := by
  induction h with
  | here hmem =>
    intro es2 heq nm n hmn
    subst heq
    exact dirMem_nameInTree _ _ _ _ hmem (mem_nameInTree _ _ _ hmn)
  | deeper hmem hsub ih =>
    intro es2 heq nm n hmn
    exact dirMem_nameInTree _ _ _ _ hmem (ih heq hmn)

theorem nodeIn_trans {n0 : FsNode} {es0 : List (List Nat × FsNode)} (h : NodeIn n0 es0) :
    ∀ {es2 : List (List Nat × FsNode)}, n0 = FsNode.dir es2 →
      ∀ {n : FsNode}, NodeIn n es2 → NodeIn n es0 := by
  induction h with
  | here hmem =>
    intro es2 heq n hn
    subst heq
    exact NodeIn.deeper hmem hn
  | deeper hmem hsub ih =>
    intro es2 heq n hn
    exact NodeIn.deeper hmem (ih heq hn)

theorem lookupEnt_mem :
    ∀ (es : List (List Nat × FsNode)) (nm : List Nat) (n : FsNode),
      lookupEnt nm es = some n → (nm, n) ∈ es
  | [], nm, n, h => by cases h
  | (name, node) :: rest, nm, n, h => by
    unfold lookupEnt at h
    by_cases heq : name = nm
    · rw [if_pos heq] at h
      have hn : node = n := Option.some.inj h
      subst hn
      subst heq
      exact List.mem_cons_self _ _
    · rw [if_neg heq] at h
      exact List.mem_cons_of_mem _ (lookupEnt_mem rest nm n h)

theorem resolveGo_nodeIn :
    ∀ (cs : List (List Nat)) (es : List (List Nat × FsNode)) (n : FsNode),
      resolveGo (FsNode.dir es) cs = .ok n → cs ≠ [] → NodeIn n es
  | [], es, n, h, hne => absurd rfl hne
  | c :: rest, es, n, h, hne => by
    unfold resolveGo at h
    match hle : lookupEnt c es with
    | none =>
      rw [hle] at h
      cases h
    | some n2 =>
      rw [hle] at h
      cases rest with
      | nil =>
        have hn : n2 = n := by
          cases n2 <;> exact Except.ok.inj h
        exact NodeIn.here (hn ▸ lookupEnt_mem es c n2 hle)
      | cons c2 rest2 =>
        cases n2 with
        | file ft rdev =>
          simp [resolveGo] at h
        | dir es2 =>
          exact nodeIn_trans (NodeIn.here (lookupEnt_mem es c _ hle)) rfl
            (resolveGo_nodeIn (c2 :: rest2) es2 n h (by simp))

theorem statPath_nodeIn {es : List (List Nat × FsNode)} {p : List Nat} {n : FsNode}
    (h : statPath (FsNode.dir es) p = .ok n) : NodeIn n es := by
  unfold statPath at h
  match hsp : splitPath p with
  | [] =>
    rw [hsp] at h
    cases h
  | c :: rest =>
    rw [hsp] at h
    exact resolveGo_nodeIn (c :: rest) es n h (by simp)

theorem openDirAt_nodeIn {es es2 : List (List Nat × FsNode)} {p : List Nat}
    (h : openDirAt (FsNode.dir es) p = .ok es2) : NodeIn (FsNode.dir es2) es := by
  unfold openDirAt at h
  match hsp : statPath (FsNode.dir es) p with
  | .error e =>
    simp only [hsp] at h
    cases h
  | .ok (FsNode.file ft rdev) =>
    simp only [hsp] at h
    cases h
  | .ok (FsNode.dir es3) =>
    simp only [hsp] at h
    have h2 : es3 = es2 := Except.ok.inj h
    exact h2 ▸ statPath_nodeIn hsp

theorem listingGo_name :
    ∀ (es : List (List Nat × FsNode)) (i : Nat) (r : DRec),
      r ∈ listingGo i es → ∃ n, (r.name, n) ∈ es
  | [], i, r, h => by
    simp [listingGo] at h
  | (nm, n0) :: rest, i, r, h => by
    unfold listingGo at h
    rcases List.mem_cons.mp h with h1 | h1
    · subst h1
      exact ⟨n0, List.mem_cons_self _ _⟩
    · obtain ⟨n2, hn2⟩ := listingGo_name rest (i + 1) r h1
      exact ⟨n2, List.mem_cons_of_mem _ hn2⟩

theorem takeBatch_mem :
    ∀ (o : List Nat) (l : List DRec) (pos : Nat) (batch : List DRec) (o2 : List Nat),
      takeBatch o l pos = (batch, o2) → ∀ r ∈ batch, r ∈ l
  | [], l, pos, batch, o2, h => by
    unfold takeBatch at h
    have hb : l.drop pos = batch := congrArg Prod.fst h
    intro r hr
    rw [← hb] at hr
    exact List.mem_of_mem_drop hr
  | b :: rest, l, pos, batch, o2, h => by
    unfold takeBatch at h
    have hb : (l.drop pos).take (b + 1) = batch := congrArg Prod.fst h
    intro r hr
    rw [← hb] at hr
    exact List.mem_of_mem_drop (List.mem_of_mem_take hr)

/-- Shape and provenance of a scan match: the activation returns the
path it was given extended by slash, one single record name, NUL — one
name, never a multi-component chain — and that name occurs as an entry
name in the tree below es0 whenever the directory under scan and every
buffered record came from that tree. -/
theorem scanGo_some_shape (tty : Dev) (es0 : List (List Nat × FsNode)) :
    ∀ (fuel : Nat) (es : List (List Nat × FsNode)) (pos tell : Nat)
      (buf rem : List DRec) (o : List Nat) (path : List Nat)
      (u : Unit) (buf2 : List DRec) (o2 : List Nat) (path2 : List Nat),
      scanGo tty fuel es pos tell buf rem o path = some (.ok (some u, buf2, o2, path2)) →
      (es = es0 ∨ NodeIn (FsNode.dir es) es0) →
      (∀ r ∈ buf, nameInTree r.name es0 = true) →
      (∀ r ∈ rem, nameInTree r.name es0 = true) →
      ∃ nm, path2 = path ++ 47 :: (nm ++ [0]) ∧ nameInTree nm es0 = true
  | 0, es, pos, tell, buf, rem, o, path, u, buf2, o2, path2, h, hes, hbuf, hrem => by
    unfold scanGo at h
    cases h
  | fuel + 1, es, pos, tell, buf, r :: rrest, o, path, u, buf2, o2, path2, h, hes, hbuf,
      hrem => by
    unfold scanGo at h
    by_cases hdot : r.name = [46] ∨ r.name = [46, 46]
    · rw [if_pos hdot] at h
      exact scanGo_some_shape tty es0 fuel es pos r.roff buf rrest o path u buf2 o2 path2 h
        hes hbuf (fun r2 hr2 => hrem r2 (List.mem_cons_of_mem _ hr2))
    · rw [if_neg hdot] at h
      by_cases hch : r.ft = FileType.character
      · rw [if_pos hch] at h
        match hsp : statPath (FsNode.dir es) r.name with
        | .error e =>
          simp only [hsp] at h
          simp at h
        | .ok n =>
          simp only [hsp] at h
          by_cases hr : nodeRdev n = tty
          · rw [if_pos hr] at h
            simp only [Option.some.injEq, Except.ok.injEq, Prod.mk.injEq] at h
            exact ⟨r.name, h.2.2.2.symm, hrem r (List.mem_cons_self _ _)⟩
          · rw [if_neg hr] at h
            exact scanGo_some_shape tty es0 fuel es pos r.roff buf rrest o path u buf2 o2
              path2 h hes hbuf (fun r2 hr2 => hrem r2 (List.mem_cons_of_mem _ hr2))
      · rw [if_neg hch] at h
        by_cases hdir : r.ft = FileType.directory
        · rw [if_pos hdir] at h
          match hod : openDirAt (FsNode.dir es) r.name with
          | .error e =>
            simp only [hod] at h
            simp at h
          | .ok es2 =>
            simp only [hod] at h
            have hes2 : es2 = es0 ∨ NodeIn (FsNode.dir es2) es0 := by
              rcases hes with hes | hes
              · exact Or.inr (hes ▸ openDirAt_nodeIn hod)
              · exact Or.inr (nodeIn_trans hes rfl (openDirAt_nodeIn hod))
            match hc : scanGo tty fuel es2 0 0 buf buf o path with
            | none =>
              simp only [hc] at h
              cases h
            | some (.error e) =>
              simp only [hc] at h
              simp at h
            | some (.ok (some uc, bufc, oc, pathc)) =>
              simp only [hc] at h
              simp only [Option.some.injEq, Except.ok.injEq, Prod.mk.injEq] at h
              obtain ⟨nm, hnm, hin⟩ := scanGo_some_shape tty es0 fuel es2 0 0 buf buf
                o path uc bufc oc pathc hc hes2 hbuf hbuf
              exact ⟨nm, h.2.2.2 ▸ hnm, hin⟩
            | some (.ok (none, bufc, oc, pathc)) =>
              simp only [hc] at h
              have hchild := scanGo_none tty fuel es2 0 0 buf buf o path bufc oc pathc hc
              obtain ⟨nm, hnm, hin⟩ := scanGo_some_shape tty es0 fuel es
                (if r.roff = 0 then pos else r.roff) r.roff bufc bufc oc
                (pathc.take path.length) u buf2 o2 path2 h hes
                (fun r2 hr2 => by rw [hchild.2] at hr2; cases hr2)
                (fun r2 hr2 => by rw [hchild.2] at hr2; cases hr2)
              rw [hchild.1, List.take_length] at hnm
              exact ⟨nm, hnm, hin⟩
        · rw [if_neg hdir] at h
          exact scanGo_some_shape tty es0 fuel es pos r.roff buf rrest o path u buf2 o2
            path2 h hes hbuf (fun r2 hr2 => hrem r2 (List.mem_cons_of_mem _ hr2))
  | fuel + 1, es, pos, tell, buf, [], o, path, u, buf2, o2, path2, h, hes, hbuf, hrem => by
    unfold scanGo at h
    match htb : takeBatch o (listingOf es) pos with
    | ([], o3) =>
      simp only [htb] at h
      simp at h
    | (r1 :: rs, o3) =>
      simp only [htb] at h
      have hinv : ∀ r2 ∈ r1 :: rs, nameInTree r2.name es0 = true := by
        intro r2 hr2
        have hl : r2 ∈ listingOf es := takeBatch_mem o (listingOf es) pos (r1 :: rs) o3
          htb r2 hr2
        obtain ⟨n2, hn2⟩ := listingGo_name es 0 r2 hl
        rcases hes with hes | hes
        · exact hes ▸ mem_nameInTree es r2.name n2 (hes ▸ hn2)
        · exact nodeIn_name hes rfl hn2
      exact scanGo_some_shape tty es0 fuel es (pos + (r1 :: rs).length) tell (r1 :: rs)
        (r1 :: rs) o3 path u buf2 o2 path2 h hes hinv hinv

/-- Inversion of a guess hit: the appended suffix is slash, guess, NUL. -/
theorem tryGuess_some_path {es : List (List Nat × FsNode)} {g : List Nat} {tty : Dev}
    {path : List Nat} {u : Unit} {p2 : List Nat}
    (h : tryGuess es g tty path = .ok (some u, p2)) : p2 = path ++ 47 :: (g ++ [0]) := by
  unfold tryGuess at h
  match hsp : statPath (FsNode.dir es) g with
  | .error e =>
    simp only [hsp] at h
    by_cases he : e = .ENOENT
    · rw [if_pos he] at h
      simp at h
    · rw [if_neg he] at h
      cases h
  | .ok n =>
    simp only [hsp] at h
    by_cases hc : nodeType n = FileType.character ∧ nodeRdev n = tty
    · rw [if_pos hc] at h
      exact (congrArg Prod.snd (Except.ok.inj h)).symm
    · rw [if_neg hc] at h
      simp at h

/-- Inversion of a guess fall-through: the path buffer is untouched. -/
theorem tryGuess_none_path {es : List (List Nat × FsNode)} {g : List Nat} {tty : Dev}
    {path : List Nat} {p2 : List Nat}
    (h : tryGuess es g tty path = .ok (none, p2)) : p2 = path := by
  unfold tryGuess at h
  match hsp : statPath (FsNode.dir es) g with
  | .error e =>
    simp only [hsp] at h
    by_cases he : e = .ENOENT
    · rw [if_pos he] at h
      exact (congrArg Prod.snd (Except.ok.inj h)).symm
    · rw [if_neg he] at h
      cases h
  | .ok n =>
    simp only [hsp] at h
    by_cases hc : nodeType n = FileType.character ∧ nodeRdev n = tty
    · rw [if_pos hc] at h
      simp at h
    · rw [if_neg hc] at h
      exact (congrArg Prod.snd (Except.ok.inj h)).symm

/-- Case analysis of a find_in_dir call that starts with the empty
dirent buffer and reports a match: the appended suffix is the guessed
name (guess hit) or one entry name occurring in the root's tree (scan
match, possibly via a stale replay — the name still names an entry of
the tree). -/
theorem findInDir_ok_some {fs : FsNode} {fuel : Nat} {d g : List Nat} {tty : Dev}
    {o : List Nat} {path : List Nat} {u : Unit} {buf2 : List DRec} {o2 : List Nat}
    {p2 : List Nat}
    (h : findInDir fs fuel d g tty [] o path = some (.ok (some u, buf2, o2, p2))) :
    p2 = (path ++ d) ++ 47 :: (g ++ [0]) ∨
      ∃ es nm, openDirAt fs d = .ok es ∧
        p2 = (path ++ d) ++ 47 :: (nm ++ [0]) ∧ nameInTree nm es = true := by
  unfold findInDir at h
  match hod : openDirAt fs d with
  | .error e =>
    simp only [hod] at h
    simp at h
  | .ok es =>
    simp only [hod] at h
    match htg : tryGuess es g tty (path ++ d) with
    | .error e =>
      simp only [htg] at h
      simp at h
    | .ok (some u2, p3) =>
      simp only [htg] at h
      simp only [Option.some.injEq, Except.ok.injEq, Prod.mk.injEq] at h
      exact Or.inl (h.2.2.2 ▸ tryGuess_some_path htg)
    | .ok (none, p3) =>
      simp only [htg] at h
      have hp3 : p3 = path ++ d := tryGuess_none_path htg
      obtain ⟨nm, hnm, hin⟩ := scanGo_some_shape tty es fuel es 0 0 [] [] o p3 u buf2 o2
        p2 h (Or.inl rfl) (by simp) (by simp)
      exact Or.inr ⟨es, nm, rfl, by rw [hnm, hp3], hin⟩

/-- Successful resolution with a single candidate root: the path buffer
is exactly the root's bytes, one slash, one appended name (the guess or
an entry name of the root's tree), and the terminator; the stored
offset points right past the root and the slash. -/
theorem byDevice_single_shape (fs : FsNode) (d : List Nat) (rdev : Dev) (o : List Nat)
    (fuel : Nat) (info : TtyInfoM)
    (h : byDevice fs [d] rdev o fuel = some (.ok info)) :
    ∃ name, info.buf = d ++ 47 :: (name ++ [0]) ∧ info.offset = d.length + 1 ∧
      (guessName rdev = some name ∨
        ∃ es, openDirAt fs d = .ok es ∧ nameInTree name es = true) := by
  unfold byDevice at h
  match hg : guessName rdev with
  | none =>
    simp only [hg] at h
    simp at h
  | some g =>
    simp only [hg] at h
    unfold byDeviceGo at h
    match hfd : findInDir fs fuel d g rdev [] o [] with
    | none =>
      simp only [hfd] at h
      cases h
    | some (.error e) =>
      simp only [hfd] at h
      simp at h
    | some (.ok (none, buf2, o2, p2)) =>
      simp only [hfd] at h
      simp [byDeviceGo] at h
    | some (.ok (some u, buf2, o2, p2)) =>
      simp only [hfd] at h
      have hinfo : info = ⟨rdev, p2, d.length + 1⟩ :=
        (Except.ok.inj (Option.some.inj h)).symm
      rcases findInDir_ok_some hfd with hsh | ⟨es, nm, hod, hsh, hin⟩
      · refine ⟨g, ?_, by rw [hinfo], Or.inl rfl⟩
        rw [hinfo]
        simpa using hsh
      · refine ⟨nm, ?_, by rw [hinfo], Or.inr ⟨es, hod, hin⟩⟩
        rw [hinfo]
        simpa using hsh

/-! ### Flat directories: the regime without stale-buffer interference -/

/-- A root listing with one mismatching character device x (4:9) and a
subdirectory sub holding a matching x (4:5). -/
def c6Es : List (List Nat × FsNode) :=
  [([120], FsNode.file FileType.character ⟨4, 9⟩),
   ([115, 117, 98], FsNode.dir [([120], FsNode.file FileType.character ⟨4, 5⟩)])]

/-- C6, counterexample to the matched half of the claim: a recursive
call that reports a match returns immediately, and the path buffer
keeps the appended suffix instead of being truncated back to its length
before the call. Here the scan over the root recurses into sub with the
shared dirent buffer still holding the whole root batch; the child
replays the stale record x against its own directory, where that name
happens to resolve to the matching device, so the recursive call
matches and the activation returns path slash x NUL appended — a buffer
longer than, not truncated to, the four bytes it held before the
recursive call. -/
theorem c6_match_keeps_appended_path :
    scanGo ⟨4, 5⟩ 9 c6Es 0 0 [] [] [] [47, 100, 101, 118] =
      some (.ok (some (), [⟨[120], FileType.character, 1⟩,
        ⟨[115, 117, 98], FileType.directory, 2⟩], [],
        [47, 100, 101, 118, 47, 120, 0])) ∧
    ([47, 100, 101, 118, 47, 120, 0] : List Nat).length ≠
      ([47, 100, 101, 118] : List Nat).length := by
  exact ⟨rfl, by decide⟩

/-- C6, amended: a recursive call that reports no match hands back a
path buffer of exactly the length (and contents) it had immediately
before the call, and the truncation the caller then performs with that
length is the identity. The hypothesis states the recursive call as
scandir makes it: fresh position and cursor, the shared dirent buffer
passed through, the iterator view starting at the top of the buffer. -/
theorem c6_no_match_restores_path (tty : Dev) (fuel : Nat)
    (es2 : List (List Nat × FsNode)) (buf : List DRec) (o : List Nat)
    (path : List Nat) (buf2 : List DRec) (o2 : List Nat) (path2 : List Nat)
    (h : scanGo tty fuel es2 0 0 buf buf o path = some (.ok (none, buf2, o2, path2))) :
    path2.take path.length = path ∧ path2 = path := by
  have h2 := scanGo_none tty fuel es2 0 0 buf buf o path buf2 o2 path2 h
  refine ⟨?_, h2.1⟩
  rw [h2.1]
  exact List.take_length _

/-- A flat directory whose lone character device does not match 4:5. -/
def c6WEs : List (List Nat × FsNode) :=
  [([120], FsNode.file FileType.character ⟨4, 9⟩)]

theorem c6_no_match_restores_path_witness :
    ([47, 100, 101, 118] : List Nat).take
        ([47, 100, 101, 118] : List Nat).length = [47, 100, 101, 118] ∧
    ([47, 100, 101, 118] : List Nat) = [47, 100, 101, 118] :=
  c6_no_match_restores_path ⟨4, 5⟩ 5 c6WEs [] [] [47, 100, 101, 118] [] []
    [47, 100, 101, 118] rfl

/-! ### C7: name() against the final path component -/

/-- The C string read from the buffer at an offset: the bytes up to the
first NUL. TtyInfo::name (mod.rs lines 45-49) reads it at the stored
offset; TtyInfo::path (mod.rs lines 37-42) reads it at offset zero. -/
def cstrAt (buf : List Nat) (off : Nat) : List Nat :=
  (buf.drop off).takeWhile fun b => !(b = 0 : Bool)

/-- The final slash-separated component of a byte string: the suffix
after the last slash (the whole string when no slash occurs). -/
def lastComponent (p : List Nat) : List Nat :=
  p.foldl (fun acc b => if b = 47 then [] else acc ++ [b]) []

theorem drop_onePast {α : Type} : ∀ (d : List α) (x : α) (t : List α),
    (d ++ x :: t).drop (d.length + 1) = t
  | [], _, _ => rfl
  | a :: d2, x, t => by
    simp only [List.cons_append, List.length_cons]
    rw [List.drop_succ_cons]
    exact drop_onePast d2 x t

theorem takeWhileNZ_append : ∀ (l1 l2 : List Nat), (∀ b ∈ l1, b ≠ 0) →
    ((l1 ++ l2).takeWhile fun b => !(b = 0 : Bool)) =
      l1 ++ (l2.takeWhile fun b => !(b = 0 : Bool))
  | [], l2, _ => by simp
  | a :: t, l2, h => by
    have ha : a ≠ 0 := h a (List.mem_cons_self _ _)
    simp [List.takeWhile_cons, ha,
      takeWhileNZ_append t l2 (fun b hb => h b (List.mem_cons_of_mem _ hb))]

theorem foldl_comp_no_slash : ∀ (l : List Nat), (∀ b ∈ l, b ≠ 47) →
    ∀ acc, l.foldl (fun acc b => if b = 47 then [] else acc ++ [b]) acc = acc ++ l
  | [], _, acc => by simp
  | a :: t, h, acc => by
    have ha : a ≠ 47 := h a (List.mem_cons_self _ _)
    rw [List.foldl_cons]
    have he : (if a = 47 then ([] : List Nat) else acc ++ [a]) = acc ++ [a] := if_neg ha
    rw [he, foldl_comp_no_slash t (fun b hb => h b (List.mem_cons_of_mem _ hb)) (acc ++ [a])]
    simp

/-- Folding the last-component scanner over a string that ends in a
slash followed by a slash-free suffix yields exactly that suffix. -/
theorem lastComponent_slash_append (d name : List Nat) (hn : ∀ b ∈ name, b ≠ 47) :
    lastComponent (d ++ 47 :: name) = name := by
  unfold lastComponent
  rw [List.foldl_append, List.foldl_cons]
  exact foldl_comp_no_slash name hn []

/-- A tree with the pseudoterminal pts/3 (136:3) below the root. -/
def c7Fs : FsNode :=
  FsNode.dir [([100, 101, 118], FsNode.dir [([112, 116, 115],
    FsNode.dir [([51], FsNode.file FileType.character ⟨136, 3⟩)])])]

/-- C7, counterexample: resolving the pseudoterminal 136:3 through the
guess pts slash 3 succeeds with the stored offset pointing at the start
of the appended guess, so name() reads pts/3 — not the final path
component 3 after the last slash of the path. -/
theorem c7_pts_name_not_last_component :
    byDevice c7Fs [[47, 100, 101, 118]] ⟨136, 3⟩ [] 4 =
      some (.ok ⟨⟨136, 3⟩, [47, 100, 101, 118, 47, 112, 116, 115, 47, 51, 0], 5⟩) ∧
    cstrAt [47, 100, 101, 118, 47, 112, 116, 115, 47, 51, 0] 5 =
      [112, 116, 115, 47, 51] ∧
    lastComponent (cstrAt [47, 100, 101, 118, 47, 112, 116, 115, 47, 51, 0] 0) =
      [51] ∧
    ([112, 116, 115, 47, 51] : List Nat) ≠ [51] := by
  refine ⟨?_, by decide, by decide, by decide⟩
  have hg : guessName ⟨136, 3⟩ = some [112, 116, 115, 47, 51] := by
    simp [guessName, decBytes]
  rw [byDevice_guess_eq _ _ _ _ _ _ hg]
  rfl

/-- C7, amended: for a successful single-root resolution, the stored
offset points at the single name appended at the match site, so name()
reads exactly that name; and whenever that name is slash-free (every
scan match with real-world entry names, and every guess except the
pseudoterminal one), name() moreover equals the bytes of path() after
its last slash. -/
theorem c7_name_is_last_component (fs : FsNode) (d : List Nat) (rdev : Dev)
    (o : List Nat) (fuel : Nat) (info : TtyInfoM)
    (h : byDevice fs [d] rdev o fuel = some (.ok info))
    (hd0 : ∀ b ∈ d, b ≠ 0) :
    ∃ name, info.buf = d ++ 47 :: (name ++ [0]) ∧
      ((∀ b ∈ name, b ≠ 47) → (∀ b ∈ name, b ≠ 0) →
        cstrAt info.buf info.offset = name ∧
        cstrAt info.buf info.offset = lastComponent (cstrAt info.buf 0)) := by
  obtain ⟨name, hbuf, hoff, _⟩ := byDevice_single_shape fs d rdev o fuel info h
  refine ⟨name, hbuf, fun hn47 hn0 => ?_⟩
  have h1 : cstrAt info.buf info.offset = name := by
    rw [hbuf, hoff]
    unfold cstrAt
    rw [drop_onePast d 47 (name ++ [0]), takeWhileNZ_append name [0] hn0]
    simp
  have hall : ∀ b ∈ d ++ 47 :: name, b ≠ 0 := by
    intro b hb
    rcases List.mem_append.mp hb with hb | hb
    · exact hd0 b hb
    · rcases List.mem_cons.mp hb with hb | hb
      · subst hb
        decide
      · exact hn0 b hb
  have h3 : cstrAt info.buf 0 = d ++ 47 :: name := by
    rw [hbuf]
    unfold cstrAt
    rw [List.drop_zero]
    have hassoc : d ++ 47 :: (name ++ [0]) = (d ++ 47 :: name) ++ [0] := by simp
    rw [hassoc, takeWhileNZ_append (d ++ 47 :: name) [0] hall]
    simp
  exact ⟨h1, by rw [h1, h3, lastComponent_slash_append d name hn47]⟩

/-- A tree with the console tty1 (4:1) directly below the root. -/
def c7Fs2 : FsNode :=
  FsNode.dir [([100, 101, 118], FsNode.dir
    [([116, 116, 121, 49], FsNode.file FileType.character ⟨4, 1⟩)])]

theorem c7_name_is_last_component_witness :
    ∃ name, (⟨⟨4, 1⟩, [47, 100, 101, 118, 47, 116, 116, 121, 49, 0], 5⟩ :
        TtyInfoM).buf = [47, 100, 101, 118] ++ 47 :: (name ++ [0]) ∧
      ((∀ b ∈ name, b ≠ 47) → (∀ b ∈ name, b ≠ 0) →
        cstrAt (⟨⟨4, 1⟩, [47, 100, 101, 118, 47, 116, 116, 121, 49, 0], 5⟩ :
          TtyInfoM).buf (⟨⟨4, 1⟩, [47, 100, 101, 118, 47, 116, 116, 121, 49, 0], 5⟩ :
          TtyInfoM).offset = name ∧
        cstrAt (⟨⟨4, 1⟩, [47, 100, 101, 118, 47, 116, 116, 121, 49, 0], 5⟩ :
          TtyInfoM).buf (⟨⟨4, 1⟩, [47, 100, 101, 118, 47, 116, 116, 121, 49, 0], 5⟩ :
          TtyInfoM).offset =
          lastComponent (cstrAt (⟨⟨4, 1⟩,
            [47, 100, 101, 118, 47, 116, 116, 121, 49, 0], 5⟩ : TtyInfoM).buf 0)) := by
  have hg : guessName ⟨4, 1⟩ = some [116, 116, 121, 49] := by
    simp [guessName, decBytes]
  have h : byDevice c7Fs2 [[47, 100, 101, 118]] ⟨4, 1⟩ [] 4 =
      some (.ok ⟨⟨4, 1⟩, [47, 100, 101, 118, 47, 116, 116, 121, 49, 0], 5⟩) := by
    rw [byDevice_guess_eq _ _ _ _ _ _ hg]
    rfl
  exact c7_name_is_last_component c7Fs2 [47, 100, 101, 118] ⟨4, 1⟩ [] 4
    ⟨⟨4, 1⟩, [47, 100, 101, 118, 47, 116, 116, 121, 49, 0], 5⟩ h (by decide)

/-! ### C9: shape of the returned path buffer -/

/-- Two candidate trees: a flat /dev without the target, and /mnt/dev
holding the target tty5 (4:5). -/
def c9Fs : FsNode :=
  FsNode.dir [([100, 101, 118], FsNode.dir
      [([120], FsNode.file FileType.character ⟨4, 9⟩)]),
    ([109, 110, 116], FsNode.dir [([100, 101, 118], FsNode.dir
      [([116, 116, 121, 53], FsNode.file FileType.character ⟨4, 5⟩)])])]

/-- C9, counterexample to the exact-shape clause: with the candidate
roots /dev and /mnt/dev and a match in the second, the returned buffer
reads /dev/mnt/dev/tty5 NUL — the path buffer is shared across roots
and never reset, so the bytes of the first root remain as a prefix, and
the buffer is not of the form root slash name NUL for either root. -/
theorem c9_multi_root_buffer_leak :
    byDevice c9Fs [[47, 100, 101, 118], [47, 109, 110, 116, 47, 100, 101, 118]]
        ⟨4, 5⟩ [] 6 =
      some (.ok ⟨⟨4, 5⟩,
        [47, 100, 101, 118, 47, 109, 110, 116, 47, 100, 101, 118,
         47, 116, 116, 121, 53, 0], 9⟩) ∧
    (∀ dd ∈ [[47, 100, 101, 118], [47, 109, 110, 116, 47, 100, 101, 118]],
      ([47, 100, 101, 118, 47, 109, 110, 116, 47, 100, 101, 118,
        47, 116, 116, 121, 53, 0] : List Nat) ≠
          dd ++ 47 :: ([116, 116, 121, 53] ++ [0])) := by
  constructor
  · have hg : guessName ⟨4, 5⟩ = some [116, 116, 121, 53] := by
      simp [guessName, decBytes]
    rw [byDevice_guess_eq _ _ _ _ _ _ hg]
    rfl
  · decide

/-- C9, amended for a single candidate root: every successful
resolution returns a buffer that is exactly the root, one slash, one
single name, and the terminator, with the offset right past the root
and the slash; the name is the guess or a single entry name occurring
somewhere in the tree below the root, so no intermediate subdirectory
names are ever appended and a device reachable only two or more levels
below the root can never have its actual path returned. -/
theorem c9_single_root_shape (fs : FsNode) (d : List Nat) (rdev : Dev)
    (o : List Nat) (fuel : Nat) (info : TtyInfoM)
    (h : byDevice fs [d] rdev o fuel = some (.ok info)) :
    ∃ name, info.buf = d ++ 47 :: (name ++ [0]) ∧ info.offset = d.length + 1 ∧
      (guessName rdev = some name ∨
        ∃ es, openDirAt fs d = .ok es ∧ nameInTree name es = true) :=
  byDevice_single_shape fs d rdev o fuel info h

/-- A flat /dev whose lone entry z is the target 188:0, so the guess
ttyUSB0 misses and the scan matches z. -/
def c9WFs : FsNode :=
  FsNode.dir [([100, 101, 118], FsNode.dir
    [([122], FsNode.file FileType.character ⟨188, 0⟩)])]

theorem c9_single_root_shape_witness :
    ∃ name, (⟨⟨188, 0⟩, [47, 100, 101, 118, 47, 122, 0], 5⟩ : TtyInfoM).buf =
        [47, 100, 101, 118] ++ 47 :: (name ++ [0]) ∧
      (⟨⟨188, 0⟩, [47, 100, 101, 118, 47, 122, 0], 5⟩ : TtyInfoM).offset =
        ([47, 100, 101, 118] : List Nat).length + 1 ∧
      (guessName ⟨188, 0⟩ = some name ∨
        ∃ es, openDirAt c9WFs [47, 100, 101, 118] = .ok es ∧
          nameInTree name es = true) := by
  have hg : guessName ⟨188, 0⟩ = some [116, 116, 121, 85, 83, 66, 48] := by
    simp [guessName, decBytes]
  have h : byDevice c9WFs [[47, 100, 101, 118]] ⟨188, 0⟩ [] 5 =
      some (.ok ⟨⟨188, 0⟩, [47, 100, 101, 118, 47, 122, 0], 5⟩) := by
    rw [byDevice_guess_eq _ _ _ _ _ _ hg]
    rfl
  exact c9_single_root_shape c9WFs [47, 100, 101, 118] ⟨188, 0⟩ [] 5
    ⟨⟨188, 0⟩, [47, 100, 101, 118, 47, 122, 0], 5⟩ h
